import Mathlib

set_option maxRecDepth 8000

/-!
# Verification of the market-dashboard aggregation/resampling core

Shallow embedding, over `ℚ`, of the algorithmic core of the repository:

* `parseIntervalToMs` / `parsePeriodToMs` — interval-string parsers;
* `aggregateTrades` / `mergeTradeIntoCandles` — the tick-to-bar OHLC
  aggregator (`src/unnamed/part_003`);
* `computeDelta` — first-difference series;
* `resampleSeries` and its per-shape instantiations — the linear
  interpolation resampler (`useMiniTicker.ts` / `useFuturesAnalytics.ts`);
* `createSampleAnalytics` — the deterministic synthetic series generator.

JavaScript numbers are modelled as `ℚ`; the non-finite values (`NaN`,
`±Infinity`) that the code guards against with `Number.isFinite` are
modelled by explicit finiteness flags on the input records, since every
guarded path is taken before any arithmetic on the offending field.
`x.toFixed(d)` followed by `Number(...)` is modelled as rounding to `d`
decimal places.  `Math.sin` / `Math.cos` are deterministic library
functions and enter the embedding as abstract function parameters.
-/

namespace Warning

/-- `Number(x.toFixed(d))`: round `x` to `d` decimal places (ties go to
the larger value, as specified for `toFixed`). -/
def toFixed (d : ℕ) (x : ℚ) : ℚ := (⌊x * 10 ^ d + 1 / 2⌋ : ℚ) / 10 ^ d

/-- JavaScript `Math.floor` as a map `ℚ → ℚ`. -/
def jsFloor (x : ℚ) : ℚ := (⌊x⌋ : ℚ)

/-- JavaScript truncation toward zero (used by the `%` operator). -/
def jsTrunc (x : ℚ) : ℤ := if 0 ≤ x then ⌊x⌋ else ⌈x⌉

/-- JavaScript `%` on numbers: remainder with the sign of the dividend. -/
def jsMod (a b : ℚ) : ℚ := a - b * (jsTrunc (a / b) : ℚ)

/-! ## A stable sort keyed by a time projection

`Array.prototype.sort((a, b) => a.time - b.time)` is a stable ascending
sort by the `time` field; we embed it as a stable insertion sort keyed
by a projection `g : T → ℚ`. -/

/-- Stable ordered insert: `x` goes in front of the first element whose
key is not below `x`'s key. -/
def insertByTime {T : Type} (g : T → ℚ) (x : T) : List T → List T
  | [] => [x]
  | y :: ys => if g x ≤ g y then x :: y :: ys else y :: insertByTime g x ys

/-- Stable insertion sort, ascending by the key `g`. -/
def sortByTime {T : Type} (g : T → ℚ) : List T → List T
  | [] => []
  | a :: l => insertByTime g a (sortByTime g l)

/-- `Array.prototype.slice(-n)`: the last `n` elements. -/
def sliceLast {T : Type} (n : ℕ) (l : List T) : List T := l.drop (l.length - n)

theorem insertByTime_perm {T : Type} (g : T → ℚ) (x : T) (l : List T) :
    List.Perm (insertByTime g x l) (x :: l) := by
  induction l with
  | nil => rfl
  | cons y ys ih =>
      by_cases h : g x ≤ g y
      · simp [insertByTime, h]
      · simp only [insertByTime, h, if_false]
        exact ((ih.cons y).trans (List.Perm.swap x y ys))

theorem sortByTime_perm {T : Type} (g : T → ℚ) (l : List T) :
    List.Perm (sortByTime g l) l := by
  induction l with
  | nil => rfl
  | cons a l ih =>
      exact (insertByTime_perm g a (sortByTime g l)).trans (ih.cons a)

theorem mem_insertByTime {T : Type} (g : T → ℚ) (x y : T) (l : List T) :
    y ∈ insertByTime g x l ↔ y = x ∨ y ∈ l := by
  rw [(insertByTime_perm g x l).mem_iff]; simp

theorem pairwise_insertByTime {T : Type} (g : T → ℚ) (x : T) (l : List T)
    (h : l.Pairwise (fun a b => g a ≤ g b)) :
    (insertByTime g x l).Pairwise (fun a b => g a ≤ g b) := by
  induction l with
  | nil => simp [insertByTime]
  | cons y ys ih =>
      by_cases hxy : g x ≤ g y
      · simp only [insertByTime, hxy, if_true]
        refine List.Pairwise.cons ?_ h
        intro z hz
        rcases List.mem_cons.mp hz with hz | hz
        · subst hz; exact hxy
        · exact le_trans hxy ((List.pairwise_cons.mp h).1 z hz)
      · simp only [insertByTime, hxy, if_false]
        rcases List.pairwise_cons.mp h with ⟨hy, hys⟩
        refine List.Pairwise.cons ?_ (ih hys)
        intro z hz
        rcases (mem_insertByTime g x z ys).mp hz with hz | hz
        · subst hz; exact le_of_not_le hxy
        · exact hy z hz

theorem pairwise_sortByTime {T : Type} (g : T → ℚ) (l : List T) :
    (sortByTime g l).Pairwise (fun a b => g a ≤ g b) := by
  induction l with
  | nil => exact List.Pairwise.nil
  | cons a l ih => exact pairwise_insertByTime g a (sortByTime g l) ih

theorem sortByTime_eq_self {T : Type} (g : T → ℚ) (l : List T)
    (h : l.Pairwise (fun a b => g a ≤ g b)) : sortByTime g l = l := by
  induction l with
  | nil => rfl
  | cons a l ih =>
      rcases List.pairwise_cons.mp h with ⟨ha, hl⟩
      rw [sortByTime, ih hl]
      cases l with
      | nil => rfl
      | cons b bs =>
          have : g a ≤ g b := ha b (List.mem_cons_self b bs)
          simp [insertByTime, this]

theorem mem_of_mem_sliceLast {T : Type} (n : ℕ) (l : List T) (x : T)
    (h : x ∈ sliceLast n l) : x ∈ l :=
  List.mem_of_mem_drop h

theorem length_sliceLast_le {T : Type} (n : ℕ) (l : List T) :
    (sliceLast n l).length ≤ n := by
  simp only [sliceLast, List.length_drop]
  omega

theorem pairwise_sliceLast {T : Type} {r : T → T → Prop} (n : ℕ) (l : List T)
    (h : l.Pairwise r) : (sliceLast n l).Pairwise r :=
  h.sublist (List.drop_sublist _ l)

/-! ## The tick-to-bar OHLC aggregator (`src/unnamed/part_003`)

`AggregateTrade` carries three finiteness flags modelling
`Number.isFinite` on its three fields; the numeric payload itself lives
in `ℚ`.  `MAX_LENGTH = 500`. -/

/-- `MAX_LENGTH` from the source. -/
def MAX_LENGTH : ℕ := 500

/-- A raw trade record `{price, quantity, time}`; the `Fin` flags state
whether the corresponding JavaScript number is finite. -/
structure AggregateTrade where
  price : ℚ
  quantity : ℚ
  time : ℚ
  priceFin : Bool
  quantityFin : Bool
  timeFin : Bool
  deriving DecidableEq, Repr

/-- The validity guard
`Number.isFinite(price) && Number.isFinite(quantity) && Number.isFinite(time)`. -/
def validTrade (t : AggregateTrade) : Bool :=
  t.priceFin && t.quantityFin && t.timeFin

/-- An OHLC candle `{time, open, high, low, close, volume}`. -/
structure Candle where
  time : ℚ
  «open» : ℚ
  high : ℚ
  low : ℚ
  close : ℚ
  volume : ℚ
  deriving DecidableEq, Repr

/-- `Math.floor(trade.time / bucketSize) * bucketSize`. -/
def bucketStart (time bucketSize : ℚ) : ℚ := jsFloor (time / bucketSize) * bucketSize

/-- The candle for a first trade of a bucket. -/
def newCandle (bucketTime : ℚ) (t : AggregateTrade) : Candle :=
  { time := bucketTime, «open» := t.price, high := t.price, low := t.price,
    close := t.price, volume := toFixed 6 t.quantity }

/-- Folding one more trade into an existing candle of the same bucket. -/
def updateCandle (existing : Candle) (bucketTime : ℚ) (t : AggregateTrade) : Candle :=
  { time := bucketTime, «open» := existing.open,
    high := max existing.high t.price, low := min existing.low t.price,
    close := t.price, volume := toFixed 6 (existing.volume + t.quantity) }

/-- `Map.prototype.get` on an insertion-ordered map of candles keyed by
their `time` field. -/
def mapGetCandle (k : ℚ) : List Candle → Option Candle
  | [] => none
  | d :: rest => if d.time = k then some d else mapGetCandle k rest

/-- `Map.prototype.set` on an insertion-ordered map of candles keyed by
their `time` field: replace in place, or append when the key is new.
Every candle stored by the aggregator has `time` equal to its key. -/
def mapSetCandle (c : Candle) : List Candle → List Candle
  | [] => [c]
  | d :: rest => if d.time = c.time then c :: rest else d :: mapSetCandle c rest

/-- One iteration of the `trades.forEach` body of `aggregateTrades`. -/
def aggStep (bucketSize : ℚ) (m : List Candle) (t : AggregateTrade) : List Candle :=
  if validTrade t then
    let bucketTime := bucketStart t.time bucketSize
    match mapGetCandle bucketTime m with
    | some existing => mapSetCandle (updateCandle existing bucketTime t) m
    | none => mapSetCandle (newCandle bucketTime t) m
  else m

/-- `aggregateTrades(trades, bucketSize)`: fold all trades into the
insertion-ordered map, read the values back in insertion order, sort by
time, keep the last `MAX_LENGTH`. -/
def aggregateTrades (trades : List AggregateTrade) (bucketSize : ℚ) : List Candle :=
  sliceLast MAX_LENGTH (sortByTime Candle.time (trades.foldl (aggStep bucketSize) []))

/-- `Array.prototype.findIndex`-and-update: replace the first candle
whose `time` equals `k` by its update, or report `none`. -/
def updateFirstCandle (k : ℚ) (t : AggregateTrade) : List Candle → Option (List Candle)
  | [] => none
  | d :: rest =>
      if d.time = k then some (updateCandle d k t :: rest)
      else (updateFirstCandle k t rest).map (d :: ·)

/-- `mergeTradeIntoCandles(previous, trade, bucketSize)`. -/
def mergeTradeIntoCandles (previous : List Candle) (t : AggregateTrade)
    (bucketSize : ℚ) : List Candle :=
  if validTrade t then
    let bucketTime := bucketStart t.time bucketSize
    let next :=
      match updateFirstCandle bucketTime t previous with
      | some l => l
      | none => previous ++ [newCandle bucketTime t]
    sliceLast MAX_LENGTH (sortByTime Candle.time next)
  else previous

/-! ### Invariants of the candle map -/

theorem mem_mapSetCandle (c z : Candle) (m : List Candle)
    (h : z ∈ mapSetCandle c m) : z = c ∨ z ∈ m := by
  induction m with
  | nil => simpa [mapSetCandle] using h
  | cons d rest ih =>
      by_cases hd : d.time = c.time
      · simp only [mapSetCandle, hd, if_true] at h
        rcases List.mem_cons.mp h with h | h
        · exact Or.inl h
        · exact Or.inr (List.mem_cons_of_mem d h)
      · simp only [mapSetCandle, hd, if_false] at h
        rcases List.mem_cons.mp h with h | h
        · exact Or.inr (h ▸ List.mem_cons_self d rest)
        · rcases ih h with h | h
          · exact Or.inl h
          · exact Or.inr (List.mem_cons_of_mem d h)

theorem pairwise_ne_mapSetCandle (c : Candle) (m : List Candle)
    (h : m.Pairwise (fun a b => a.time ≠ b.time)) :
    (mapSetCandle c m).Pairwise (fun a b => a.time ≠ b.time) := by
  induction m with
  | nil => simp [mapSetCandle]
  | cons d rest ih =>
      rcases List.pairwise_cons.mp h with ⟨hd, hrest⟩
      by_cases hdc : d.time = c.time
      · simp only [mapSetCandle, hdc, if_true]
        exact List.Pairwise.cons (fun z hz => hdc ▸ hd z hz) hrest
      · simp only [mapSetCandle, hdc, if_false]
        refine List.Pairwise.cons ?_ (ih hrest)
        intro z hz
        rcases mem_mapSetCandle c z rest hz with hz | hz
        · exact hz ▸ hdc
        · exact hd z hz

theorem pairwise_ne_aggStep (b : ℚ) (m : List Candle) (t : AggregateTrade)
    (h : m.Pairwise (fun a b => a.time ≠ b.time)) :
    (aggStep b m t).Pairwise (fun a b => a.time ≠ b.time) := by
  unfold aggStep
  by_cases hv : validTrade t
  · simp only [hv, if_true]
    cases mapGetCandle (bucketStart t.time b) m with
    | none => exact pairwise_ne_mapSetCandle _ m h
    | some existing => exact pairwise_ne_mapSetCandle _ m h
  · simpa [hv] using h

theorem pairwise_ne_foldl_aggStep (b : ℚ) (trades : List AggregateTrade)
    (m : List Candle) (h : m.Pairwise (fun a b => a.time ≠ b.time)) :
    (trades.foldl (aggStep b) m).Pairwise (fun a b => a.time ≠ b.time) := by
  induction trades generalizing m with
  | nil => exact h
  | cons t ts ih => exact ih (aggStep b m t) (pairwise_ne_aggStep b m t h)

theorem pairwise_lt_of_sorted_ne {l : List Candle}
    (hle : l.Pairwise (fun a b => a.time ≤ b.time))
    (hne : l.Pairwise (fun a b => a.time ≠ b.time)) :
    l.Pairwise (fun a b => a.time < b.time) :=
  (hle.and hne).imp (fun h => lt_of_le_of_ne h.1 h.2)

/-! ### OHLC well-formedness -/

/-- `low ≤ open ≤ high` and `low ≤ close ≤ high`. -/
def wellFormedCandle (c : Candle) : Prop :=
  c.low ≤ c.open ∧ c.open ≤ c.high ∧ c.low ≤ c.close ∧ c.close ≤ c.high

instance (c : Candle) : Decidable (wellFormedCandle c) := by
  unfold wellFormedCandle; infer_instance

theorem wellFormed_newCandle (k : ℚ) (t : AggregateTrade) :
    wellFormedCandle (newCandle k t) :=
  ⟨le_refl _, le_refl _, le_refl _, le_refl _⟩

theorem wellFormed_updateCandle (c : Candle) (k : ℚ) (t : AggregateTrade)
    (h : wellFormedCandle c) : wellFormedCandle (updateCandle c k t) := by
  obtain ⟨h1, h2, h3, h4⟩ := h
  refine ⟨?_, ?_, ?_, ?_⟩
  · exact le_trans (min_le_left _ _) h1
  · exact le_trans h2 (le_max_left _ _)
  · exact min_le_right _ _
  · exact le_max_right _ _

theorem wellFormed_mapSetCandle (c : Candle) (m : List Candle)
    (hc : wellFormedCandle c) (h : ∀ z ∈ m, wellFormedCandle z) :
    ∀ z ∈ mapSetCandle c m, wellFormedCandle z := by
  intro z hz
  rcases mem_mapSetCandle c z m hz with hz | hz
  · exact hz ▸ hc
  · exact h z hz

theorem mapGetCandle_mem (k : ℚ) (m : List Candle) (c : Candle)
    (h : mapGetCandle k m = some c) : c ∈ m := by
  induction m with
  | nil => simp [mapGetCandle] at h
  | cons d rest ih =>
      by_cases hd : d.time = k
      · simp only [mapGetCandle, hd, if_true, Option.some.injEq] at h
        exact h ▸ List.mem_cons_self d rest
      · simp only [mapGetCandle, hd, if_false] at h
        exact List.mem_cons_of_mem d (ih h)

theorem wellFormed_aggStep (b : ℚ) (m : List Candle) (t : AggregateTrade)
    (h : ∀ z ∈ m, wellFormedCandle z) :
    ∀ z ∈ aggStep b m t, wellFormedCandle z := by
  unfold aggStep
  by_cases hv : validTrade t
  · simp only [hv, if_true]
    cases hg : mapGetCandle (bucketStart t.time b) m with
    | none => exact wellFormed_mapSetCandle _ m (wellFormed_newCandle _ t) h
    | some existing =>
        exact wellFormed_mapSetCandle _ m
          (wellFormed_updateCandle existing _ t (h existing (mapGetCandle_mem _ m existing hg))) h
  · simpa [hv] using h

theorem wellFormed_foldl_aggStep (b : ℚ) (trades : List AggregateTrade)
    (m : List Candle) (h : ∀ z ∈ m, wellFormedCandle z) :
    ∀ z ∈ trades.foldl (aggStep b) m, wellFormedCandle z := by
  induction trades generalizing m with
  | nil => exact h
  | cons t ts ih => exact ih (aggStep b m t) (wellFormed_aggStep b m t h)

/-! ### Structure of `updateFirstCandle` and `mergeTradeIntoCandles` -/

theorem mem_updateFirstCandle (k : ℚ) (t : AggregateTrade) (l res : List Candle)
    (h : updateFirstCandle k t l = some res) :
    ∀ z ∈ res, z ∈ l ∨ ∃ d ∈ l, z = updateCandle d k t := by
  induction l generalizing res with
  | nil => simp [updateFirstCandle] at h
  | cons d rest ih =>
      by_cases hd : d.time = k
      · simp only [updateFirstCandle, hd, if_true, Option.some.injEq] at h
        subst h
        intro z hz
        rcases List.mem_cons.mp hz with hz | hz
        · exact Or.inr ⟨d, List.mem_cons_self d rest, hz⟩
        · exact Or.inl (List.mem_cons_of_mem d hz)
      · simp only [updateFirstCandle, hd, if_false, Option.map_eq_some'] at h
        obtain ⟨res', hres', rfl⟩ := h
        intro z hz
        rcases List.mem_cons.mp hz with hz | hz
        · exact Or.inl (hz ▸ List.mem_cons_self d rest)
        · rcases ih res' hres' z hz with h | ⟨e, he, hz⟩
          · exact Or.inl (List.mem_cons_of_mem d h)
          · exact Or.inr ⟨e, List.mem_cons_of_mem d he, hz⟩

theorem mem_mergeTradeIntoCandles (previous : List Candle) (t : AggregateTrade)
    (b : ℚ) (z : Candle) (hz : z ∈ mergeTradeIntoCandles previous t b) :
    z ∈ previous ∨ z.time = bucketStart t.time b := by
  unfold mergeTradeIntoCandles at hz
  by_cases hv : validTrade t
  · simp only [hv, if_true] at hz
    have hz' := (sortByTime_perm Candle.time _).mem_iff.mp
      (mem_of_mem_sliceLast _ _ _ hz)
    cases hu : updateFirstCandle (bucketStart t.time b) t previous with
    | some l =>
        rw [hu] at hz'
        rcases mem_updateFirstCandle _ t previous l hu z hz' with h | ⟨d, _, rfl⟩
        · exact Or.inl h
        · exact Or.inr rfl
    | none =>
        rw [hu] at hz'
        rcases List.mem_append.mp hz' with h | h
        · exact Or.inl h
        · exact Or.inr (by simpa using congrArg Candle.time (List.mem_singleton.mp h))
  · simp only [hv, if_false] at hz
    exact Or.inl hz

/-- **C3.** For every bucket size `b > 0` and every batch of ticks, the
bar list produced by `aggregateTrades` is strictly ascending by bucket
start (hence has no two bars with the same bucket start) and has at most
`MAX_LENGTH = 500` entries; a tick with a non-finite price, quantity or
time anywhere in the batch is skipped, leaving the result as if it were
absent. -/
theorem aggregateTrades_sorted_bounded (trades pre post : List AggregateTrade)
    (t : AggregateTrade) (b : ℚ) (hb : 0 < b) (ht : validTrade t = false) :
    (aggregateTrades trades b).Pairwise (fun x y => x.time < y.time) ∧
    (aggregateTrades trades b).Pairwise (fun x y => x.time ≠ y.time) ∧
    (aggregateTrades trades b).length ≤ 500 ∧
    aggregateTrades (pre ++ t :: post) b = aggregateTrades (pre ++ post) b := by
  have hne : ∀ tr : List AggregateTrade,
      (aggregateTrades tr b).Pairwise (fun x y => x.time ≠ y.time) := by
    intro tr
    have h0 : (tr.foldl (aggStep b) []).Pairwise (fun x y => x.time ≠ y.time) :=
      pairwise_ne_foldl_aggStep b tr [] List.Pairwise.nil
    have hs : (sortByTime Candle.time (tr.foldl (aggStep b) [])).Pairwise
        (fun x y => x.time ≠ y.time) :=
      ((sortByTime_perm Candle.time _).pairwise_iff
        (fun h => (h ·.symm))).mpr h0
    exact pairwise_sliceLast _ _ hs
  refine ⟨?_, hne trades, ?_, ?_⟩
  · have hle : (sortByTime Candle.time (trades.foldl (aggStep b) [])).Pairwise
        (fun x y => x.time ≤ y.time) := pairwise_sortByTime _ _
    have h0 : (trades.foldl (aggStep b) []).Pairwise (fun x y => x.time ≠ y.time) :=
      pairwise_ne_foldl_aggStep b trades [] List.Pairwise.nil
    have hs := ((sortByTime_perm Candle.time _).pairwise_iff
      (fun h => (h ·.symm))).mpr h0
    exact pairwise_sliceLast _ _ (pairwise_lt_of_sorted_ne hle hs)
  · exact length_sliceLast_le _ _
  · unfold aggregateTrades
    rw [List.foldl_append, List.foldl_append, List.foldl_cons]
    have : aggStep b (pre.foldl (aggStep b) []) t = pre.foldl (aggStep b) [] := by
      simp [aggStep, ht]
    rw [this]

/-- Witness for `aggregateTrades_sorted_bounded` at a concrete batch and
a concrete invalid tick. -/
theorem aggregateTrades_sorted_bounded_witness :
    (aggregateTrades [⟨100, 1, 1000, true, true, true⟩,
        ⟨105, 2, 30000, true, true, true⟩, ⟨95, 1, 90000, true, true, true⟩]
        60000).Pairwise (fun x y => x.time < y.time) ∧
    (aggregateTrades [⟨100, 1, 1000, true, true, true⟩,
        ⟨105, 2, 30000, true, true, true⟩, ⟨95, 1, 90000, true, true, true⟩]
        60000).Pairwise (fun x y => x.time ≠ y.time) ∧
    (aggregateTrades [⟨100, 1, 1000, true, true, true⟩,
        ⟨105, 2, 30000, true, true, true⟩, ⟨95, 1, 90000, true, true, true⟩]
        60000).length ≤ 500 ∧
    aggregateTrades ([] ++ ⟨7, 7, 7, false, true, true⟩ ::
        [⟨100, 1, 1000, true, true, true⟩]) 60000 =
      aggregateTrades ([] ++ [⟨100, 1, 1000, true, true, true⟩]) 60000 :=
  aggregateTrades_sorted_bounded
    [⟨100, 1, 1000, true, true, true⟩, ⟨105, 2, 30000, true, true, true⟩,
      ⟨95, 1, 90000, true, true, true⟩]
    [] [⟨100, 1, 1000, true, true, true⟩] ⟨7, 7, 7, false, true, true⟩ 60000
    (by norm_num) (by rfl)

/-- **C5.** A tick with a non-finite price, quantity or time leaves the
bar list of `mergeTradeIntoCandles` completely unchanged. -/
theorem mergeTradeIntoCandles_invalid_noop (previous : List Candle)
    (t : AggregateTrade) (b : ℚ) (ht : validTrade t = false) :
    mergeTradeIntoCandles previous t b = previous := by
  simp [mergeTradeIntoCandles, ht]

/-- Witness for `mergeTradeIntoCandles_invalid_noop` at a concrete bar
list and an invalid tick (non-finite quantity). -/
theorem mergeTradeIntoCandles_invalid_noop_witness :
    mergeTradeIntoCandles [⟨0, 1, 2, 1, 2, 5⟩] ⟨3, 4, 5, true, false, true⟩ 60000 =
      [⟨0, 1, 2, 1, 2, 5⟩] :=
  mergeTradeIntoCandles_invalid_noop [⟨0, 1, 2, 1, 2, 5⟩]
    ⟨3, 4, 5, true, false, true⟩ 60000 (by rfl)

/-- **C9.** Frame property of `mergeTradeIntoCandles`: for a valid tick
and a positive bucket size, every bar of the output whose time differs
from the tick's bucket start is a bar of the input list; the input list
itself is never mutated (the embedding is a pure function returning a
fresh list, mirroring the source's copy-then-update). -/
theorem mergeTradeIntoCandles_frame (previous : List Candle)
    (t : AggregateTrade) (b : ℚ) (z : Candle) (hb : 0 < b)
    (hv : validTrade t = true) (hz : z ∈ mergeTradeIntoCandles previous t b)
    (hne : z.time ≠ bucketStart t.time b) : z ∈ previous := by
  rcases mem_mergeTradeIntoCandles previous t b z hz with h | h
  · exact h
  · exact absurd h hne

/-- Witness for `mergeTradeIntoCandles_frame`: merging a tick of bucket
`60000` into a one-bar list keeps the untouched bar at time `0`. -/
theorem mergeTradeIntoCandles_frame_witness :
    (⟨0, 1, 2, 1, 2, 5⟩ : Candle) ∈ [(⟨0, 1, 2, 1, 2, 5⟩ : Candle)] :=
  mergeTradeIntoCandles_frame [⟨0, 1, 2, 1, 2, 5⟩] ⟨3, 4, 61000, true, true, true⟩
    60000 ⟨0, 1, 2, 1, 2, 5⟩ (by norm_num) (by rfl)
    (by
      norm_num [mergeTradeIntoCandles, validTrade, bucketStart, jsFloor,
        updateFirstCandle, newCandle, sortByTime, insertByTime, sliceLast,
        MAX_LENGTH, toFixed])
    (by norm_num [bucketStart, jsFloor])

/-- **C10.** OHLC well-formedness: every bar built by `aggregateTrades`
satisfies `low ≤ open ≤ high` and `low ≤ close ≤ high`, and
`mergeTradeIntoCandles` preserves this invariant from its input list. -/
theorem candles_wellFormed (trades : List AggregateTrade) (previous : List Candle)
    (t : AggregateTrade) (b : ℚ)
    (hprev : previous.Forall wellFormedCandle) :
    (aggregateTrades trades b).Forall wellFormedCandle ∧
    (mergeTradeIntoCandles previous t b).Forall wellFormedCandle := by
  constructor
  · rw [List.forall_iff_forall_mem]
    intro z hz
    have hz' := (sortByTime_perm Candle.time _).mem_iff.mp
      (mem_of_mem_sliceLast _ _ _ hz)
    exact wellFormed_foldl_aggStep b trades [] (by simp) z hz'
  · rw [List.forall_iff_forall_mem]
    rw [List.forall_iff_forall_mem] at hprev
    intro z hz
    unfold mergeTradeIntoCandles at hz
    by_cases hv : validTrade t
    · simp only [hv, if_true] at hz
      have hz' := (sortByTime_perm Candle.time _).mem_iff.mp
        (mem_of_mem_sliceLast _ _ _ hz)
      cases hu : updateFirstCandle (bucketStart t.time b) t previous with
      | some l =>
          rw [hu] at hz'
          rcases mem_updateFirstCandle _ t previous l hu z hz' with h | ⟨d, hd, rfl⟩
          · exact hprev z h
          · exact wellFormed_updateCandle d _ t (hprev d hd)
      | none =>
          rw [hu] at hz'
          rcases List.mem_append.mp hz' with h | h
          · exact hprev z h
          · rw [List.mem_singleton.mp h]
            exact wellFormed_newCandle _ t
    · simp only [hv, if_false] at hz
      exact hprev z hz

/-- Witness for `candles_wellFormed` at a concrete batch, bar list and
tick. -/
theorem candles_wellFormed_witness :
    (aggregateTrades [⟨100, 1, 1000, true, true, true⟩,
        ⟨95, 2, 30000, true, true, true⟩] 60000).Forall wellFormedCandle ∧
    (mergeTradeIntoCandles [⟨0, 1, 2, 1, 2, 5⟩] ⟨3, 4, 5, true, true, true⟩
        60000).Forall wellFormedCandle :=
  candles_wellFormed [⟨100, 1, 1000, true, true, true⟩,
      ⟨95, 2, 30000, true, true, true⟩] [⟨0, 1, 2, 1, 2, 5⟩]
    ⟨3, 4, 5, true, true, true⟩ 60000 (by decide)

/-! ## The delta computer (`computeDelta`, identical in
`useMiniTicker.ts` and `useFuturesAnalytics.ts`) -/

/-- A level point `{time, openInterest, openInterestValue}`. -/
structure OpenInterestPoint where
  time : ℚ
  openInterest : ℚ
  openInterestValue : ℚ
  deriving DecidableEq, Repr

/-- A first-difference point `{time, increase, decrease}`. -/
structure OpenInterestDeltaPoint where
  time : ℚ
  increase : ℚ
  decrease : ℚ
  deriving DecidableEq, Repr

/-- The loop body of `computeDelta` for indices with a predecessor. -/
def computeDeltaAux (previous : OpenInterestPoint) :
    List OpenInterestPoint → List OpenInterestDeltaPoint
  | [] => []
  | current :: rest =>
      let diff := current.openInterest - previous.openInterest
      ⟨current.time, if diff > 0 then diff else 0, if diff < 0 then diff else 0⟩ ::
        computeDeltaAux current rest

/-- `computeDelta(series)`: the first point gets `(0, 0)`, every later
point the split difference to its predecessor. -/
def computeDelta : List OpenInterestPoint → List OpenInterestDeltaPoint
  | [] => []
  | current :: rest => ⟨current.time, 0, 0⟩ :: computeDeltaAux current rest

theorem length_computeDeltaAux (p : OpenInterestPoint)
    (l : List OpenInterestPoint) : (computeDeltaAux p l).length = l.length := by
  induction l generalizing p with
  | nil => rfl
  | cons c rest ih => simpa [computeDeltaAux] using ih c

theorem sum_computeDeltaAux (p : OpenInterestPoint) (l : List OpenInterestPoint) :
    ((computeDeltaAux p l).map (·.increase)).sum
      + ((computeDeltaAux p l).map (·.decrease)).sum
      = (l.getLastD p).openInterest - p.openInterest := by
  induction l generalizing p with
  | nil => simp [computeDeltaAux]
  | cons c rest ih =>
      have hsplit :
          (if c.openInterest - p.openInterest > 0 then c.openInterest - p.openInterest else 0)
            + (if c.openInterest - p.openInterest < 0 then c.openInterest - p.openInterest else 0)
            = c.openInterest - p.openInterest := by
        rcases lt_trichotomy (c.openInterest - p.openInterest) 0 with h | h | h
        · rw [if_neg (by linarith), if_pos h]; ring
        · rw [if_neg (by linarith), if_neg (by linarith)]; linarith
        · rw [if_pos h, if_neg (by linarith)]; ring
      simp only [computeDeltaAux, List.map_cons, List.sum_cons, List.getLastD_cons]
      have := ih c
      linarith [hsplit, this]

/-- **C4.** `computeDelta` returns one point per input point, its first
point always carries `increase = decrease = 0`, and for every series of
length at least two the sum of all `increase` fields plus the sum of all
`decrease` fields telescopes to `last.openInterest − first.openInterest`. -/
theorem computeDelta_spec (s : List OpenInterestPoint) :
    (computeDelta s).length = s.length ∧
    ((computeDelta s).headD ⟨0, 0, 0⟩).increase = 0 ∧
    ((computeDelta s).headD ⟨0, 0, 0⟩).decrease = 0 ∧
    (2 ≤ s.length →
      ((computeDelta s).map (·.increase)).sum + ((computeDelta s).map (·.decrease)).sum
        = (s.getLastD ⟨0, 0, 0⟩).openInterest - (s.headD ⟨0, 0, 0⟩).openInterest) := by
  cases s with
  | nil => exact ⟨rfl, rfl, rfl, by intro h; simp at h⟩
  | cons c rest =>
      refine ⟨?_, rfl, rfl, ?_⟩
      · simpa [computeDelta] using length_computeDeltaAux c rest
      · intro h
        simp only [computeDelta, List.map_cons, List.sum_cons, List.getLastD_cons,
          List.headD_cons]
        have := sum_computeDeltaAux c rest
        cases rest with
        | nil => simp at h
        | cons d tail => simp only [List.getLastD_cons] at this ⊢; linarith

/-- Witness for `computeDelta_spec` at a concrete three-point series:
`10 → 4 → 7` telescopes to `7 − 10 = −3`. -/
theorem computeDelta_spec_witness :
    (computeDelta [⟨0, 10, 0⟩, ⟨1, 4, 0⟩, ⟨2, 7, 0⟩]).length =
      ([⟨0, 10, 0⟩, ⟨1, 4, 0⟩, ⟨2, 7, 0⟩] : List OpenInterestPoint).length ∧
    ((computeDelta [⟨0, 10, 0⟩, ⟨1, 4, 0⟩, ⟨2, 7, 0⟩]).map (·.increase)).sum
        + ((computeDelta [⟨0, 10, 0⟩, ⟨1, 4, 0⟩, ⟨2, 7, 0⟩]).map (·.decrease)).sum
      = (([⟨0, 10, 0⟩, ⟨1, 4, 0⟩, ⟨2, 7, 0⟩] : List OpenInterestPoint).getLastD
          ⟨0, 0, 0⟩).openInterest
        - (([⟨0, 10, 0⟩, ⟨1, 4, 0⟩, ⟨2, 7, 0⟩] : List OpenInterestPoint).headD
          ⟨0, 0, 0⟩).openInterest :=
  ⟨(computeDelta_spec [⟨0, 10, 0⟩, ⟨1, 4, 0⟩, ⟨2, 7, 0⟩]).1,
    (computeDelta_spec [⟨0, 10, 0⟩, ⟨1, 4, 0⟩, ⟨2, 7, 0⟩]).2.2.2 (by norm_num)⟩

/-! ## The interval/period parsers

`parseIntervalToMs` (`src/unnamed/part_003`) matches `^(\d+)([smhd])$`;
`parsePeriodToMs` (the analytics hook) matches `^(\d+)([mhd])$`.  The
`switch` on the captured unit is embedded as a chain of equality tests. -/

/-- `Number(digit-string)`: the decimal value of a digit string. -/
def digitsToNat (l : List Char) : ℕ :=
  l.foldl (fun acc c => acc * 10 + (c.toNat - 48)) 0

/-- Split a string into everything but the last character and the last
character. -/
def splitLastChar : List Char → Option (List Char × Char)
  | [] => none
  | c :: rest =>
      match splitLastChar rest with
      | none => some ([], c)
      | some (ds, u) => some (c :: ds, u)

/-- The anchored match `^(\d+)(unit)$` with `unit` drawn from `units`:
the capture groups when the whole string is a nonempty digit run
followed by one unit character. -/
def matchIntervalRegex (units : List Char) (s : List Char) :
    Option (List Char × Char) :=
  match splitLastChar s with
  | none => none
  | some (digits, u) =>
      if digits ≠ [] ∧ digits.all Char.isDigit = true ∧ u ∈ units then
        some (digits, u)
      else none

/-- `parseIntervalToMs(interval)` from `src/unnamed/part_003`. -/
def parseIntervalToMs (s : List Char) : Option ℚ :=
  match matchIntervalRegex ['s', 'm', 'h', 'd'] s with
  | none => none
  | some (digits, u) =>
      let value : ℚ := (digitsToNat digits : ℚ)
      if value ≤ 0 then none
      else if u = 's' then some (value * 1000)
      else if u = 'm' then some (value * 60000)
      else if u = 'h' then some (value * 60 * 60000)
      else if u = 'd' then some (value * 24 * 60 * 60000)
      else none

/-- `parsePeriodToMs(value)` from the analytics hook. -/
def parsePeriodToMs (s : List Char) : Option ℚ :=
  match matchIntervalRegex ['m', 'h', 'd'] s with
  | none => none
  | some (digits, u) =>
      let amount : ℚ := (digitsToNat digits : ℚ)
      if amount ≤ 0 then none
      else if u = 'm' then some (amount * 60000)
      else if u = 'h' then some (amount * 60 * 60000)
      else if u = 'd' then some (amount * 24 * 60 * 60000)
      else none

/-- Millisecond value of each unit accepted by `parseIntervalToMs`. -/
def intervalUnitMs (u : Char) : Option ℚ :=
  if u = 's' then some 1000
  else if u = 'm' then some 60000
  else if u = 'h' then some 3600000
  else if u = 'd' then some 86400000
  else none

/-- Millisecond value of each unit accepted by `parsePeriodToMs`. -/
def periodUnitMs (u : Char) : Option ℚ :=
  if u = 'm' then some 60000
  else if u = 'h' then some 3600000
  else if u = 'd' then some 86400000
  else none

/-- Spec-side parser behaviour, written from the spec words: succeed
with `amount × unit-milliseconds` exactly on strings
`<positive integer><known unit>`, fail otherwise. -/
def specParseMs (unitMs : Char → Option ℚ) (s : List Char) : Option ℚ :=
  match s.getLast? with
  | none => none
  | some u =>
      match unitMs u with
      | none => none
      | some m =>
          if s.dropLast ≠ [] ∧ s.dropLast.all Char.isDigit = true ∧
              0 < digitsToNat s.dropLast then
            some ((digitsToNat s.dropLast : ℚ) * m)
          else none

theorem splitLastChar_concat (ds : List Char) (u : Char) :
    splitLastChar (ds ++ [u]) = some (ds, u) := by
  induction ds with
  | nil => rfl
  | cons c rest ih =>
      show splitLastChar (c :: (rest ++ [u])) = some (c :: rest, u)
      rw [splitLastChar, ih]

/-- **C6 (amended).** Both parsers succeed with `amount × unit-milliseconds`
exactly when the input is `<positive integer><unit>` with a positive
amount and a unit the respective parser knows — `{s, m, h, d}` for
`parseIntervalToMs` but only `{m, h, d}` for `parsePeriodToMs` — and
fail on every other string (non-matching format, zero amount, unknown
unit). -/
theorem parsers_match_spec (s : List Char) :
    parseIntervalToMs s = specParseMs intervalUnitMs s ∧
    parsePeriodToMs s = specParseMs periodUnitMs s := by
  rcases List.eq_nil_or_concat s with rfl | ⟨ds, u, rfl⟩
  · exact ⟨rfl, rfl⟩
  simp only [List.concat_eq_append]
  have hcast : ∀ n : ℕ, ((n : ℚ) ≤ 0 ↔ ¬0 < n) := by
    intro n
    rw [Nat.cast_nonpos]
    omega
  constructor
  · unfold parseIntervalToMs matchIntervalRegex specParseMs
    rw [splitLastChar_concat]
    simp only [List.getLast?_concat, List.dropLast_concat]
    by_cases h1 : ds = []
    · subst h1
      cases h : intervalUnitMs u <;> simp [h]
    by_cases h2 : ds.all Char.isDigit = true
    swap
    · cases h : intervalUnitMs u <;> simp [h, h2]
    by_cases h3 : 0 < digitsToNat ds
    · by_cases hu : u ∈ (['s', 'm', 'h', 'd'] : List Char)
      · have hle : ¬((digitsToNat ds : ℚ) ≤ 0) := by rw [hcast]; exact not_not_intro h3
        rcases (by simpa using hu : u = 's' ∨ u = 'm' ∨ u = 'h' ∨ u = 'd') with
          rfl | rfl | rfl | rfl <;>
          simp [h1, h2, h3, hle, intervalUnitMs, Option.some.injEq] <;> ring
      · have := hu
        simp only [List.mem_cons, List.mem_singleton, not_or] at this
        obtain ⟨hs', hm', hh', hd'⟩ := this
        simp [h1, h2, hu, intervalUnitMs, hs', hm', hh', hd']
    · have hle : (digitsToNat ds : ℚ) ≤ 0 := by rw [hcast]; exact h3
      by_cases hu : u ∈ (['s', 'm', 'h', 'd'] : List Char)
      · cases h : intervalUnitMs u <;> simp [h, h1, h2, h3, hu, hle]
      · cases h : intervalUnitMs u <;> simp [h, h1, h2, h3, hu, hle]
  · unfold parsePeriodToMs matchIntervalRegex specParseMs
    rw [splitLastChar_concat]
    simp only [List.getLast?_concat, List.dropLast_concat]
    by_cases h1 : ds = []
    · subst h1
      cases h : periodUnitMs u <;> simp [h]
    by_cases h2 : ds.all Char.isDigit = true
    swap
    · cases h : periodUnitMs u <;> simp [h, h2]
    by_cases h3 : 0 < digitsToNat ds
    · by_cases hu : u ∈ (['m', 'h', 'd'] : List Char)
      · have hle : ¬((digitsToNat ds : ℚ) ≤ 0) := by rw [hcast]; exact not_not_intro h3
        rcases (by simpa using hu : u = 'm' ∨ u = 'h' ∨ u = 'd') with
          rfl | rfl | rfl <;>
          simp [h1, h2, h3, hle, periodUnitMs, Option.some.injEq] <;> ring
      · have := hu
        simp only [List.mem_cons, List.mem_singleton, not_or] at this
        obtain ⟨hm', hh', hd'⟩ := this
        simp [h1, h2, hu, periodUnitMs, hm', hh', hd']
    · have hle : (digitsToNat ds : ℚ) ≤ 0 := by rw [hcast]; exact h3
      by_cases hu : u ∈ (['m', 'h', 'd'] : List Char)
      · cases h : periodUnitMs u <;> simp [h, h1, h2, h3, hu, hle]
      · cases h : periodUnitMs u <;> simp [h, h1, h2, h3, hu, hle]

/-- Counterexample to **C6** as stated: `"1s"` matches
`<positive integer><unit>` with unit `s ∈ {s, m, h, d}`, yet the period
parser rejects it while the interval parser accepts it. -/
theorem parsePeriodToMs_rejects_seconds :
    parsePeriodToMs ['1', 's'] = none ∧
    parseIntervalToMs ['1', 's'] = some 1000 := by
  constructor
  · rfl
  · show parseIntervalToMs (['1'] ++ ['s']) = some 1000
    have hdig : (['1'] : List Char).all Char.isDigit = true := by decide
    unfold parseIntervalToMs matchIntervalRegex
    rw [splitLastChar_concat]
    simp only [hdig]
    norm_num [digitsToNat, Char.toNat]
    exact ⟨by decide, by decide⟩

/-! ## The generic series resampler and its per-shape instantiations -/

/-- A long/short ratio point `{time, long, short, ratio}`. -/
structure LongShortRatioPoint where
  time : ℚ
  long : ℚ
  short : ℚ
  ratio : ℚ
  deriving DecidableEq, Repr

/-- A taker-volume point `{time, buyVolume, sellVolume, ratio}`. -/
structure TakerVolumePoint where
  time : ℚ
  buyVolume : ℚ
  sellVolume : ℚ
  ratio : ℚ
  deriving DecidableEq, Repr

/-- A basis point `{time, markPrice, indexPrice, basis}`. -/
structure BasisPoint where
  time : ℚ
  markPrice : ℚ
  indexPrice : ℚ
  basis : ℚ
  deriving DecidableEq, Repr

/-- The `for` loop of `resampleSeries`: emit every point of the sorted
input; whenever the gap to the successor exceeds the target, also emit
`steps − 1` interpolated points (`steps = ⌊gap / target⌋`) right after
the current point. -/
def resampleLoop {T : Type} (g : T → ℚ) (interp : T → T → ℚ → ℚ → T)
    (target : ℚ) : List T → List T
  | [] => []
  | [c] => [c]
  | c :: next :: rest =>
      let span := g next - g c
      if span > target then
        let steps := (⌊span / target⌋).toNat
        c :: ((List.range' 1 (steps - 1)).map
            (fun step => interp c next ((step * target) / span) (g c + step * target)))
          ++ resampleLoop g interp target (next :: rest)
      else c :: resampleLoop g interp target (next :: rest)

/-- `resampleSeries(series, targetIntervalMs, interpolate)`: empty input
or a non-positive target returns a copy of the input; otherwise sort by
time, run the interpolation loop, and sort the result by time. -/
def resampleSeries {T : Type} (g : T → ℚ) (series : List T) (target : ℚ)
    (interp : T → T → ℚ → ℚ → T) : List T :=
  if series.length = 0 ∨ target ≤ 0 then series
  else sortByTime g (resampleLoop g interp target (sortByTime g series))

/-- `resampleOpenInterestSeries`: both numeric fields are primitive and
linearly blended; the final map is the identity re-wrap `Number(x)`. -/
def resampleOpenInterestSeries (series : List OpenInterestPoint) (t : ℚ) :
    List OpenInterestPoint :=
  (resampleSeries OpenInterestPoint.time series t (fun current next ratio time =>
    ⟨time, current.openInterest + (next.openInterest - current.openInterest) * ratio,
      current.openInterestValue
        + (next.openInterestValue - current.openInterestValue) * ratio⟩)).map
    (fun item => ⟨item.time, item.openInterest, item.openInterestValue⟩)

/-- `resampleLongShortSeries`: `long`/`short` are primitive, `ratio` is
recomputed from them (0 when `short = 0`) and finally rounded to three
decimals for every point. -/
def resampleLongShortSeries (series : List LongShortRatioPoint) (t : ℚ) :
    List LongShortRatioPoint :=
  (resampleSeries LongShortRatioPoint.time series t (fun current next ratio time =>
    let long := current.long + (next.long - current.long) * ratio
    let short := current.short + (next.short - current.short) * ratio
    ⟨time, long, short, if short = 0 then 0 else long / short⟩)).map
    (fun item =>
      let long := item.long
      let short := item.short
      let ratio := if short = 0 then 0 else long / short
      ⟨item.time, long, short, toFixed 3 ratio⟩)

/-- `resampleTakerVolumeSeries`: `buyVolume`/`sellVolume` are primitive,
`ratio` recomputed (0 when `sellVolume = 0`) and rounded to three
decimals for every point. -/
def resampleTakerVolumeSeries (series : List TakerVolumePoint) (t : ℚ) :
    List TakerVolumePoint :=
  (resampleSeries TakerVolumePoint.time series t (fun current next ratio time =>
    let buyVolume := current.buyVolume + (next.buyVolume - current.buyVolume) * ratio
    let sellVolume := current.sellVolume + (next.sellVolume - current.sellVolume) * ratio
    ⟨time, buyVolume, sellVolume, if sellVolume = 0 then 0 else buyVolume / sellVolume⟩)).map
    (fun item =>
      let buyVolume := item.buyVolume
      let sellVolume := item.sellVolume
      let ratio := if sellVolume = 0 then 0 else buyVolume / sellVolume
      ⟨item.time, buyVolume, sellVolume, toFixed 3 ratio⟩)

/-- `resampleBasisSeries`: `markPrice`/`indexPrice` are primitive,
`basis` recomputed as their difference and rounded to two decimals for
every point. -/
def resampleBasisSeries (series : List BasisPoint) (t : ℚ) : List BasisPoint :=
  (resampleSeries BasisPoint.time series t (fun current next ratio time =>
    let markPrice := current.markPrice + (next.markPrice - current.markPrice) * ratio
    let indexPrice := current.indexPrice + (next.indexPrice - current.indexPrice) * ratio
    ⟨time, markPrice, indexPrice, markPrice - indexPrice⟩)).map
    (fun item =>
      let markPrice := item.markPrice
      let indexPrice := item.indexPrice
      ⟨item.time, markPrice, indexPrice, toFixed 2 (markPrice - indexPrice)⟩)

theorem resampleLoop_no_gap {T : Type} (g : T → ℚ) (interp : T → T → ℚ → ℚ → T)
    (t : ℚ) (l : List T) (h : l.Chain' (fun a b => g b - g a ≤ t)) :
    resampleLoop g interp t l = l := by
  induction l with
  | nil => rfl
  | cons c rest ih =>
      cases rest with
      | nil => rfl
      | cons next rest2 =>
          have hc : g next - g c ≤ t := (List.chain'_cons.mp h).1
          have htail := (List.chain'_cons.mp h).2
          show (if g next - g c > t then _ else
            c :: resampleLoop g interp t (next :: rest2)) = c :: next :: rest2
          rw [if_neg (not_lt.mpr hc)]
          rw [ih htail]

theorem resampleSeries_no_gap {T : Type} (g : T → ℚ)
    (interp : T → T → ℚ → ℚ → T) (t : ℚ) (series : List T) (ht : 0 < t)
    (h : series.Chain' (fun a b => g a ≤ g b ∧ g b - g a ≤ t)) :
    resampleSeries g series t interp = series := by
  unfold resampleSeries
  by_cases hnil : series.length = 0
  · rw [if_pos (Or.inl hnil)]
  · rw [if_neg (by push_neg; exact ⟨hnil, ht⟩)]
    haveI : IsTrans T (fun a b => g a ≤ g b) := ⟨fun _ _ _ hab hbc => le_trans hab hbc⟩
    have hle : series.Pairwise (fun a b => g a ≤ g b) :=
      List.chain'_iff_pairwise.mp (h.imp (fun _ _ hab => hab.1))
    have hgap : series.Chain' (fun a b => g b - g a ≤ t) := h.imp (fun _ _ hab => hab.2)
    rw [sortByTime_eq_self g series hle, resampleLoop_no_gap g interp t series hgap,
      sortByTime_eq_self g series hle]

theorem resampleLongShortSeries_singleton (p : LongShortRatioPoint) (t : ℚ)
    (ht : 0 < t) :
    resampleLongShortSeries [p] t =
      [⟨p.time, p.long, p.short,
        toFixed 3 (if p.short = 0 then 0 else p.long / p.short)⟩] := by
  unfold resampleLongShortSeries
  rw [resampleSeries_no_gap _ _ t [p] ht (List.chain'_singleton p)]
  rfl

theorem resampleTakerVolumeSeries_singleton (p : TakerVolumePoint) (t : ℚ)
    (ht : 0 < t) :
    resampleTakerVolumeSeries [p] t =
      [⟨p.time, p.buyVolume, p.sellVolume,
        toFixed 3 (if p.sellVolume = 0 then 0 else p.buyVolume / p.sellVolume)⟩] := by
  unfold resampleTakerVolumeSeries
  rw [resampleSeries_no_gap _ _ t [p] ht (List.chain'_singleton p)]
  rfl

theorem resampleBasisSeries_singleton (p : BasisPoint) (t : ℚ) (ht : 0 < t) :
    resampleBasisSeries [p] t =
      [⟨p.time, p.markPrice, p.indexPrice,
        toFixed 2 (p.markPrice - p.indexPrice)⟩] := by
  unfold resampleBasisSeries
  rw [resampleSeries_no_gap _ _ t [p] ht (List.chain'_singleton p)]
  rfl

/-- **C1 (amended).** Every point of a resampled ratio or taker-volume
series — synthetically inserted points included — carries
`ratio = toFixed 3 (long / short)` (respectively
`toFixed 3 (buyVolume / sellVolume)`), with `ratio = 0` before rounding
when the denominator is `0`: the final pass recomputes the ratio from
the point's own primitive fields and rounds it to three decimals. -/
theorem resampled_ratio_consistent (s2 : List LongShortRatioPoint)
    (s3 : List TakerVolumePoint) (t : ℚ) (p : LongShortRatioPoint)
    (q : TakerVolumePoint) (hp : p ∈ resampleLongShortSeries s2 t)
    (hq : q ∈ resampleTakerVolumeSeries s3 t) :
    p.ratio = toFixed 3 (if p.short = 0 then 0 else p.long / p.short) ∧
    q.ratio = toFixed 3 (if q.sellVolume = 0 then 0 else q.buyVolume / q.sellVolume) := by
  constructor
  · obtain ⟨item, -, rfl⟩ := List.mem_map.mp hp
    rfl
  · obtain ⟨item, -, rfl⟩ := List.mem_map.mp hq
    rfl

/-- Witness for `resampled_ratio_consistent` at concrete one-point
series. -/
theorem resampled_ratio_consistent_witness :
    (⟨0, 1, 1, 1⟩ : LongShortRatioPoint).ratio =
      toFixed 3 (if (⟨0, 1, 1, 1⟩ : LongShortRatioPoint).short = 0 then 0
        else (⟨0, 1, 1, 1⟩ : LongShortRatioPoint).long /
          (⟨0, 1, 1, 1⟩ : LongShortRatioPoint).short) ∧
    (⟨0, 2, 1, 2⟩ : TakerVolumePoint).ratio =
      toFixed 3 (if (⟨0, 2, 1, 2⟩ : TakerVolumePoint).sellVolume = 0 then 0
        else (⟨0, 2, 1, 2⟩ : TakerVolumePoint).buyVolume /
          (⟨0, 2, 1, 2⟩ : TakerVolumePoint).sellVolume) :=
  resampled_ratio_consistent [⟨0, 1, 1, 0⟩] [⟨0, 2, 1, 0⟩] 60 ⟨0, 1, 1, 1⟩ ⟨0, 2, 1, 2⟩
    (by
      rw [resampleLongShortSeries_singleton _ 60 (by norm_num)]
      norm_num [toFixed])
    (by
      rw [resampleTakerVolumeSeries_singleton _ 60 (by norm_num)]
      norm_num [toFixed])

/-- Counterexample to **C1** as stated: resampling the one-point ratio
series `{time 0, long 2, short 3}` outputs `ratio = 0.667`, which is not
`long / short = 2/3` — the code rounds the recomputed ratio to three
decimals. -/
theorem resampled_ratio_exact_cex :
    resampleLongShortSeries [⟨0, 2, 3, 0⟩] 60 = [⟨0, 2, 3, 667 / 1000⟩] ∧
    (667 / 1000 : ℚ) ≠ 2 / 3 := by
  constructor
  · rw [resampleLongShortSeries_singleton _ 60 (by norm_num)]
    norm_num [toFixed]
  · norm_num

/-- **C2 (amended).** Resampling a time-sorted series whose consecutive
gaps are at most the (positive) target interval inserts nothing and
keeps every point's time and primitive fields in place: the level shape
is returned exactly unchanged, while the ratio, volume and basis shapes
return each point with its derived field recomputed from that point's
primitives and rounded (`toFixed 3` for the ratios, `toFixed 2` for the
basis) — so those three shapes return the input unchanged exactly when
every point's derived field already equals this recomputed value. -/
theorem resample_native_identity (t : ℚ) (s1 : List OpenInterestPoint)
    (s2 : List LongShortRatioPoint) (s3 : List TakerVolumePoint)
    (s4 : List BasisPoint) (ht : 0 < t)
    (h1 : s1.Chain' (fun a b => a.time ≤ b.time ∧ b.time - a.time ≤ t))
    (h2 : s2.Chain' (fun a b => a.time ≤ b.time ∧ b.time - a.time ≤ t))
    (h3 : s3.Chain' (fun a b => a.time ≤ b.time ∧ b.time - a.time ≤ t))
    (h4 : s4.Chain' (fun a b => a.time ≤ b.time ∧ b.time - a.time ≤ t)) :
    resampleOpenInterestSeries s1 t = s1 ∧
    resampleLongShortSeries s2 t = s2.map (fun p =>
      ⟨p.time, p.long, p.short,
        toFixed 3 (if p.short = 0 then 0 else p.long / p.short)⟩) ∧
    resampleTakerVolumeSeries s3 t = s3.map (fun p =>
      ⟨p.time, p.buyVolume, p.sellVolume,
        toFixed 3 (if p.sellVolume = 0 then 0 else p.buyVolume / p.sellVolume)⟩) ∧
    resampleBasisSeries s4 t = s4.map (fun p =>
      ⟨p.time, p.markPrice, p.indexPrice,
        toFixed 2 (p.markPrice - p.indexPrice)⟩) := by
  refine ⟨?_, ?_, ?_, ?_⟩
  · unfold resampleOpenInterestSeries
    rw [resampleSeries_no_gap _ _ t s1 ht h1]
    have heta : (fun p : OpenInterestPoint =>
        (⟨p.time, p.openInterest, p.openInterestValue⟩ : OpenInterestPoint)) = id :=
      funext fun p => by cases p; rfl
    rw [heta, List.map_id]
  · unfold resampleLongShortSeries
    rw [resampleSeries_no_gap _ _ t s2 ht h2]
  · unfold resampleTakerVolumeSeries
    rw [resampleSeries_no_gap _ _ t s3 ht h3]
  · unfold resampleBasisSeries
    rw [resampleSeries_no_gap _ _ t s4 ht h4]

/-- Witness for `resample_native_identity` at concrete one-point series
and target `60`. -/
theorem resample_native_identity_witness :
    resampleOpenInterestSeries [⟨0, 1, 2⟩] 60 = [⟨0, 1, 2⟩] ∧
    resampleLongShortSeries [⟨0, 1, 4, 1 / 4⟩] 60 =
      ([⟨0, 1, 4, 1 / 4⟩] : List LongShortRatioPoint).map (fun p =>
        ⟨p.time, p.long, p.short,
          toFixed 3 (if p.short = 0 then 0 else p.long / p.short)⟩) ∧
    resampleTakerVolumeSeries [⟨0, 3, 2, 3 / 2⟩] 60 =
      ([⟨0, 3, 2, 3 / 2⟩] : List TakerVolumePoint).map (fun p =>
        ⟨p.time, p.buyVolume, p.sellVolume,
          toFixed 3 (if p.sellVolume = 0 then 0 else p.buyVolume / p.sellVolume)⟩) ∧
    resampleBasisSeries [⟨0, 5, 3, 2⟩] 60 =
      ([⟨0, 5, 3, 2⟩] : List BasisPoint).map (fun p =>
        ⟨p.time, p.markPrice, p.indexPrice,
          toFixed 2 (p.markPrice - p.indexPrice)⟩) :=
  resample_native_identity 60 [⟨0, 1, 2⟩] [⟨0, 1, 4, 1 / 4⟩] [⟨0, 3, 2, 3 / 2⟩]
    [⟨0, 5, 3, 2⟩] (by norm_num) (List.chain'_singleton _)
    (List.chain'_singleton _) (List.chain'_singleton _) (List.chain'_singleton _)

/-- Counterexample to **C2** as stated: the one-point basis series with
`markPrice = 1/8`, `indexPrice = 0`, `basis = 1/8` is time-sorted with
no gap above the target `60`, yet resampling rewrites `basis` to
`toFixed 2 (1/8) = 0.13 ≠ 1/8`, so the original points are not returned
unchanged. -/
theorem resample_native_identity_cex :
    resampleBasisSeries [⟨0, 1 / 8, 0, 1 / 8⟩] 60 ≠ [⟨0, 1 / 8, 0, 1 / 8⟩] := by
  rw [resampleBasisSeries_singleton _ 60 (by norm_num)]
  norm_num [toFixed, BasisPoint.mk.injEq]

/-- **C8.** Resampling the two-point level series
`[{time 0, value 0}, {time 120, value 12}]` to target interval `60`
inserts exactly the linearly interpolated point `{time 60, value 6}`
and keeps both original points. -/
theorem resample_level_scenario :
    resampleOpenInterestSeries [⟨0, 0, 0⟩, ⟨120, 12, 0⟩] 60 =
      [⟨0, 0, 0⟩, ⟨60, 6, 0⟩, ⟨120, 12, 0⟩] := by
  unfold resampleOpenInterestSeries resampleSeries
  norm_num [sortByTime, insertByTime, resampleLoop, List.range']

/-! ## The deterministic synthetic series generator
(`createSampleAnalytics`, `useMiniTicker.ts` lines 224–317)

The only ambient, impure input the source reads is `Date.now()`; we
model the ambient world as a `JsEnv` carrying the clock and an entropy
oracle (standing for `Math.random`-style sources that the generator
never consults).  `Math.sin` / `Math.cos` are fixed deterministic
library functions, passed in as abstract parameters. -/

/-- `DEFAULT_SAMPLE_INTERVAL_MS = 60 * 60 * 1000`. -/
def DEFAULT_SAMPLE_INTERVAL_MS : ℚ := 60 * 60 * 1000

/-- The analytics bundle. -/
structure FuturesAnalytics where
  openInterest : List OpenInterestPoint
  openInterestDelta : List OpenInterestDeltaPoint
  topAccountsRatio : List LongShortRatioPoint
  topPositionsRatio : List LongShortRatioPoint
  globalAccountsRatio : List LongShortRatioPoint
  takerVolume : List TakerVolumePoint
  basis : List BasisPoint
  deriving DecidableEq, Repr

/-- The ambient impure inputs available to the code at evaluation time:
the wall clock (`Date.now()`) and an entropy oracle. -/
structure JsEnv where
  now : ℚ
  entropy : ℕ → ℚ

/-- The symbol seed: `Σ charCode(cᵢ) · (i + 1)`. -/
def charFactor (symbol : List Char) : ℕ :=
  (symbol.enum).foldl (fun acc ic => acc + ic.2.toNat * (ic.1 + 1)) 0

/-- The body of the generator's `for` loop, peeled off one iteration at
a time: `fuel` counts the remaining iterations, `i` the current index,
`level` the running open-interest level. -/
def sampleLoop (sin cos : ℚ → ℚ) (factor eff start : ℚ) (limit : ℕ) :
    ℕ → ℕ → ℚ →
      List OpenInterestPoint × List LongShortRatioPoint ×
        List LongShortRatioPoint × List LongShortRatioPoint ×
        List TakerVolumePoint × List BasisPoint
  | 0, _, _ => ([], [], [], [], [], [])
  | fuel + 1, i, level =>
      let time := start + i * eff
      let scaledIndex := (i * eff) / DEFAULT_SAMPLE_INTERVAL_MS
      let seasonal := sin ((scaledIndex + factor / 10) / 3) * 2500
      let momentum := jsMod scaledIndex 12 * 140 - 400
      let level2 := max 60000 (level + seasonal * (1 / 10) + momentum)
      let openInterestValue := level2 * (240 + sin (scaledIndex / 6))
      let point : OpenInterestPoint := ⟨time, toFixed 2 level2, toFixed 2 openInterestValue⟩
      let longAccount := 55 + sin (scaledIndex / 2 + factor) * 7
      let longPosition := 52 + sin (scaledIndex / (9 / 5) + factor / 2) * 9
      let globalAccount := 49 + sin (scaledIndex / 3 + factor / 3) * 6
      let ta : LongShortRatioPoint :=
        ⟨time, toFixed 2 longAccount, toFixed 2 (100 - longAccount),
          toFixed 3 (longAccount / (100 - longAccount))⟩
      let tp : LongShortRatioPoint :=
        ⟨time, toFixed 2 longPosition, toFixed 2 (100 - longPosition),
          toFixed 3 (longPosition / (100 - longPosition))⟩
      let ga : LongShortRatioPoint :=
        ⟨time, toFixed 2 globalAccount, toFixed 2 (100 - globalAccount),
          toFixed 3 (globalAccount / (100 - globalAccount))⟩
      let buyVolume := 18000 + sin (scaledIndex / (5 / 2) + factor) * 3000 + scaledIndex * 120
      let sellVolume := 17000 + cos (scaledIndex / (27 / 10) + factor / 4) * 2800
        + max 0 ((limit : ℚ) - scaledIndex) * 90
      let tv : TakerVolumePoint :=
        ⟨time, toFixed 2 (max 0 buyVolume), toFixed 2 (max 0 sellVolume),
          toFixed 3 (buyVolume / max 1 sellVolume)⟩
      let basePrice := 25000 + sin (scaledIndex / 4 + factor) * 400 + scaledIndex * 15
      let markPrice := basePrice + sin (scaledIndex / 3) * 45
      let indexPrice := basePrice - cos (scaledIndex / 5) * 35
      let bp : BasisPoint :=
        ⟨time, toFixed 2 markPrice, toFixed 2 indexPrice,
          toFixed 2 (markPrice - indexPrice)⟩
      let rest := sampleLoop sin cos factor eff start limit fuel (i + 1) level2
      (point :: rest.1, ta :: rest.2.1, tp :: rest.2.2.1, ga :: rest.2.2.2.1,
        tv :: rest.2.2.2.2.1, bp :: rest.2.2.2.2.2)

/-- `createSampleAnalytics(symbol, limit, intervalMs)` evaluated in the
ambient environment `env`; reads exactly `env.now` for its anchor. -/
def createSampleAnalytics (sin cos : ℚ → ℚ) (symbol : List Char) (limit : ℕ)
    (intervalMs : ℚ) (env : JsEnv) : FuturesAnalytics :=
  let effectiveInterval := if 0 < intervalMs then intervalMs else DEFAULT_SAMPLE_INTERVAL_MS
  let start := env.now - limit * effectiveInterval
  let factor : ℚ := (charFactor symbol : ℚ)
  let level0 : ℚ := 85000 + ((charFactor symbol % 1000 : ℕ) : ℚ)
  let r := sampleLoop sin cos factor effectiveInterval start limit limit 0 level0
  { openInterest := r.1
    openInterestDelta := computeDelta r.1
    topAccountsRatio := r.2.1
    topPositionsRatio := r.2.2.1
    globalAccountsRatio := r.2.2.2.1
    takerVolume := r.2.2.2.2.1
    basis := r.2.2.2.2.2 }

/-- **C7.** The synthetic generator is deterministic: with the same
`Math.sin`/`Math.cos` library, the same `(symbol, limit, interval)`
parameters, and two ambient environments that agree on the `Date.now()`
anchor (but may have arbitrarily different entropy sources), the two
evaluations produce identical output in every field of every series of
the bundle. -/
theorem createSampleAnalytics_deterministic (sin cos : ℚ → ℚ)
    (symbol : List Char) (limit : ℕ) (intervalMs : ℚ) (e1 e2 : JsEnv)
    (h : e1.now = e2.now) :
    createSampleAnalytics sin cos symbol limit intervalMs e1 =
      createSampleAnalytics sin cos symbol limit intervalMs e2 := by
  unfold createSampleAnalytics
  rw [h]

/-- Witness for `createSampleAnalytics_deterministic`: two environments
with equal clocks but different entropy oracles. -/
theorem createSampleAnalytics_deterministic_witness :
    createSampleAnalytics (fun _ => 0) (fun _ => 0) ['B', 'T', 'C'] 2 60000
        ⟨1000, fun _ => 0⟩ =
      createSampleAnalytics (fun _ => 0) (fun _ => 0) ['B', 'T', 'C'] 2 60000
        ⟨1000, fun _ => 1⟩ :=
  createSampleAnalytics_deterministic (fun _ => 0) (fun _ => 0) ['B', 'T', 'C'] 2
    60000 ⟨1000, fun _ => 0⟩ ⟨1000, fun _ => 1⟩ rfl

end Warning
